import Mathlib

/-!
Verification of the scoring and leaderboard computation engine of the
mahjong tournament tracker (src/src/App.jsx and the near-duplicate
evolutionary snapshot src/unnamed/part_000).

JavaScript numbers are modelled as `Rat` (the spec fixes real-valued
division semantics for `(raw - 30000) / 1000`), raw point entries as
`Int`, player ids as `String`.
-/

namespace MT

/-- One seat entry passed to `computeRoundDeltas`: `{pid, raw}`.
(The caller also attaches an `idx` field, which `computeRoundDeltas`
never reads, so it is omitted here.) -/
structure SeatEntry where
  pid : String
  raw : Int
deriving DecidableEq, Repr

/-- One output record of `computeRoundDeltas`:
`{pid, delta, base, bonus, raw}`. -/
structure Breakdown where
  pid : String
  delta : Rat
  base : Rat
  bonus : Rat
  raw : Int
deriving DecidableEq, Repr

/-- One stable-insertion step of a descending sort by `key`
(JavaScript `arr.sort((a, b) => key(b) - key(a))`, which is a stable
sort).  The inserted element `x` is earlier in the input than everything
in the list it is inserted into, so on ties (`key x = key y`) it is
placed first. -/
def insertSortedDesc {α β : Type} [LinearOrder β] (key : α → β) (x : α) :
    List α → List α
  | [] => [x]
  | y :: ys =>
    if key x ≥ key y then x :: y :: ys else y :: insertSortedDesc key x ys

/-- Stable sort, descending by `key`. -/
def sortDescBy {α β : Type} [LinearOrder β] (key : α → β) : List α → List α
  | [] => []
  | x :: xs => insertSortedDesc key x (sortDescBy key xs)

/-- The source's `[...seatWithRaw].sort((a, b) => b.raw - a.raw)`: a stable
sort by `raw` descending. -/
def sortByRawDesc (l : List SeatEntry) : List SeatEntry :=
  sortDescBy (·.raw) l

/-- Index of the LAST entry of `l` whose pid is `pid`, i.e. the value
`Object.fromEntries(sorted.map((x, i) => [x.pid, i]))[pid]`: with
duplicate keys, `Object.fromEntries` keeps the last binding; an absent
key reads as `undefined` (`none`). -/
def idxOfLast (pid : String) : List SeatEntry → Option Nat
  | [] => none
  | e :: es =>
    match idxOfLast pid es with
    | some i => some (i + 1)
    | none => if e.pid = pid then some 0 else none

/-- Models `rankBonus[rankIndexByPid[pid]] ?? 0`: an out-of-range index, or an
absent pid (index `undefined`), yields `undefined`, which `?? 0` turns
into `0`. -/
def bonusAt (rankBonus : List Rat) : Option Nat → Rat
  | some i => rankBonus.getD i 0
  | none => 0

/-- The source's `computeRoundDeltas(seatWithRaw, rankBonus)`: stable
sort by raw descending to get ranks, then map each input entry (in input
order) to `{pid, delta: base + bonus, base, bonus, raw}` with
`base = (raw - 30000) / 1000` and `bonus = rankBonus[rank] ?? 0`. -/
def computeRoundDeltas (seatWithRaw : List SeatEntry) (rankBonus : List Rat) :
    List Breakdown :=
  let sorted := sortByRawDesc seatWithRaw
  seatWithRaw.map (fun e =>
    let base : Rat := ((e.raw : Rat) - 30000) / 1000
    let bonus : Rat := bonusAt rankBonus (idxOfLast e.pid sorted)
    ⟨e.pid, base + bonus, base, bonus, e.raw⟩)

/-- Spec-side definition ("rank all 4 entries by rawScore descending,
ties broken by input order, rank index 0 = best"): the rank of the entry
at position `k` is the number of entries with strictly larger raw plus
the number of earlier entries with equal raw. -/
def rankOf (raws : List Int) (k : Nat) : Nat :=
  raws.countP (fun r => decide (r > raws.getD k 0)) +
    (raws.take k).countP (fun r => decide (r = raws.getD k 0))

/-- Spec-side output record: `base = (raw - 30000)/1000`,
`delta = base + bonus`, fields in the source's order. -/
def roundRecord (p : String) (r : Int) (b : Rat) : Breakdown :=
  ⟨p, ((r : Rat) - 30000) / 1000 + b, ((r : Rat) - 30000) / 1000, b, r⟩

/-! ## Roster, ledger and leaderboard

The `playerScores` ledger is a JavaScript object accessed only by key
(`playerScores[p.id]`, `next[d.pid] = ...`, `delete next[p.id]`); no code
path enumerates its keys, so it is embedded as a function
`String → Option Rat` (absent key = `none`, i.e. `undefined`). -/

/-- A roster entry `{id, name, avatar, note}`. -/
structure Player where
  id : String
  name : String
  avatar : String
  note : String
deriving DecidableEq, Repr

/-- One row of the derived player leaderboard:
`{key: p.id, name: p.name, avatar: p.avatar, score: playerScores[p.id] || 0}`. -/
structure BoardEntry where
  key : String
  name : String
  avatar : String
  score : Rat
deriving DecidableEq, Repr

/-- Models `playerScores[p.id] || 0` (an absent key reads as `undefined`, which
`|| 0` turns into `0`; a stored `0` is falsy and also yields `0`). -/
def scoreOf (m : String → Option Rat) (k : String) : Rat :=
  (m k).getD 0

/-- The source's `playerBoard` memo:
`players.map(p => ({key, name, avatar, score})).sort((a, b) => b.score - a.score)`
(a stable descending sort by score). -/
def playerBoard (players : List Player) (playerScores : String → Option Rat) :
    List BoardEntry :=
  sortDescBy (fun e => e.score)
    (players.map (fun p => ⟨p.id, p.name, p.avatar, scoreOf playerScores p.id⟩))

/-- The row order the `Leaderboard` component renders:
`items.slice(0, k)` (highlighted), a divider, then `items.slice(k)`.
`topK` only moves the divider. -/
def leaderboardRows (items : List BoardEntry) (k : Nat) : List BoardEntry :=
  items.take k ++ items.drop k

/-! ## Round commits and the tournament state machine (src/src/App.jsx)

Raw score inputs are modelled as `Option Int`: `some n` is a finite
parsed number, `none` is a non-finite parse (`NaN`), which
`Number.isFinite` rejects. -/

/-- A committed round record (its `id` and timestamp are opaque to every
claim and omitted): `{seat, raw, breakdown}`, with `breakdown` computed
once at commit time and frozen. -/
structure Round where
  seat : List String
  raw : List Int
  breakdown : List Breakdown
deriving DecidableEq, Repr

/-- JavaScript `String.prototype.trim()`: strip whitespace from both
ends (embedded over the character list so that it is executable). -/
def jsTrim (s : String) : String :=
  ⟨((s.data.dropWhile Char.isWhitespace).reverse.dropWhile
      Char.isWhitespace).reverse⟩

/-- The validation messages of `RoundDialog.validate` (each return is a
distinct message string identifying the failed rule). -/
inductive VMsg
  | seatInvalid
  | scoreInvalid
  | sumMismatch (sum : Int)
deriving DecidableEq, Repr

/-- The source's `RoundDialog.validate` (src/src/App.jsx): 4 distinct non-empty
seat players (`new Set(seat.filter(Boolean)).size !== 4`), all scores
finite, and the raw scores must total exactly 100000. -/
def validate (seat : List String) (nums : List (Option Int)) : Option VMsg :=
  if ((seat.filter (fun x => !(x == ""))).dedup).length ≠ 4 then
    some .seatInvalid
  else if nums.any (fun n => n.isNone) then some .scoreInvalid
  else if (nums.map (fun n => n.getD 0)).sum ≠ 100000 then
    some (.sumMismatch (nums.map (fun n => n.getD 0)).sum)
  else none

/-- The full tournament state of src/src/App.jsx: roster, ledger, round
history, rank-bonus table and the leaderboard divider `topK`. -/
structure AppState where
  players : List Player
  playerScores : String → Option Rat
  rounds : List Round
  rankBonus : List Rat
  topK : Nat

/-- The ledger fold of `RoundDialog.onSave`:
`for (const d of deltas) next[d.pid] = (next[d.pid] || 0) + d.delta`. -/
def applyDeltas (m : String → Option Rat) : List Breakdown → (String → Option Rat)
  | [] => m
  | d :: ds =>
    applyDeltas
      (fun q => if q = d.pid then some ((m d.pid).getD 0 + d.delta) else m q)
      ds

/-- The committing branch of `RoundDialog.onSave`: build the seat/raw
pairs, run the scoring engine with the current bonus table, append the
frozen round and fold the deltas into the ledger. -/
def applyCommit (seat : List String) (nums : List (Option Int))
    (s : AppState) : AppState :=
  let raws := nums.map (fun n => n.getD 0)
  let seatWithRaw := List.zipWith (fun p r => SeatEntry.mk p r) seat raws
  let deltas := computeRoundDeltas seatWithRaw s.rankBonus
  { s with
    rounds := s.rounds ++ [⟨seat, raws, deltas⟩],
    playerScores := applyDeltas s.playerScores deltas }

/-- The source's `RoundDialog.onSave` as a whole: on a validation failure the error
message is surfaced (`setError(msg)`) and the state is returned
untouched; otherwise the round is committed. -/
def roundSave (seat : List String) (nums : List (Option Int))
    (s : AppState) : AppState × Option VMsg :=
  match validate seat nums with
  | some m => (s, some m)
  | none => (applyCommit seat nums s, none)

/-- The core operations on the tournament state. -/
inductive Op
  | commit (seat : List String) (nums : List (Option Int))
  | addPlayer (pid name avatar : String)
  | removePlayer (pid : String)
  | reset
  | settings (tb : List Rat) (k : Nat)

/-- One UI-reachable operation.  `commit` requires validation to pass
and every seat id to come from the roster (the seat `Select` only offers
current players); `addPlayer` requires a non-empty trimmed name and a
fresh id (ids are minted from `Date.now()`), modelled as: unused in the
roster, the ledger and all round history; `removePlayer` exists as a
button only for roster members; `reset` zeroes the ledger for the
current roster and clears the history; `settings` requires 4 finite
bonuses and `1 ≤ topK ≤ players.length`. -/
def stepA : Op → AppState → Option AppState
  | .commit seat nums, s =>
    if seat.length = 4 ∧ nums.length = 4 ∧ validate seat nums = none ∧
        (∀ p ∈ seat, p ∈ s.players.map (·.id)) then
      some (applyCommit seat nums s)
    else none
  | .addPlayer pid name avatar, s =>
    if jsTrim name ≠ "" ∧ pid ∉ s.players.map (·.id) ∧
        s.playerScores pid = none ∧
        (∀ r ∈ s.rounds, ∀ b ∈ r.breakdown, b.pid ≠ pid) then
      some
        { s with
          players := s.players ++ [⟨pid, jsTrim name, avatar, ""⟩],
          playerScores := fun q => if q = pid then some 0 else s.playerScores q,
          topK := (s.players.length + 2) / 2 }
    else none
  | .removePlayer pid, s =>
    if pid ∈ s.players.map (·.id) then
      some
        { s with
          players := s.players.filter (fun p => !(p.id == pid)),
          playerScores := fun q => if q = pid then none else s.playerScores q }
    else none
  | .reset, s =>
    some
      { s with
        playerScores := fun q =>
          if q ∈ s.players.map (·.id) then some 0 else none,
        rounds := [] }
  | .settings tb k, s =>
    if tb.length = 4 ∧ 1 ≤ k ∧ k ≤ s.players.length then
      some { s with rankBonus := tb, topK := k }
    else none

/-- Run a sequence of operations; `none` if any operation is not
accepted. -/
def runA : List Op → AppState → Option AppState
  | [], s => some s
  | op :: ops, s =>
    match stepA op s with
    | some s2 => runA ops s2
    | none => none

/-- A fresh tournament: a roster, an all-zero ledger over that roster,
no history, the default bonus table and divider. -/
def initA (roster : List Player) : AppState :=
  { players := roster,
    playerScores := fun q => if q ∈ roster.map (·.id) then some 0 else none,
    rounds := [],
    rankBonus := [35, 10, -10, -20],
    topK := 4 }

/-- Sum of the deltas of the breakdown entries carrying pid `p`. -/
def deltaSumFor (bs : List Breakdown) (p : String) : Rat :=
  ((bs.filter (fun b => b.pid == p)).map (fun b => b.delta)).sum

/-- Sum of player `p`'s deltas over all committed rounds. -/
def roundsSum (rounds : List Round) (p : String) : Rat :=
  (rounds.map (fun r => deltaSumFor r.breakdown p)).sum

/-- The two-part inductive invariant: every roster member has a ledger
entry, and every ledger entry equals that player's total round delta. -/
def stateInv (s : AppState) : Prop :=
  (∀ p ∈ s.players.map (·.id), (s.playerScores p).isSome = true) ∧
    (∀ p : String, (s.playerScores p).isSome = true →
      (s.playerScores p).getD 0 = roundsSum s.rounds p)

/-! ## The grouping variant (src/unnamed/part_000)

This evolutionary snapshot keeps optional 2v2 grouping and does NOT
enforce the 100000 raw-score total.  `GroupSetupButton` is disabled as
soon as any round exists (`disabled = anyRounds`) — the spec calls this
failure `LockedError` — and `resetAll` clears rounds, scores AND the
grouping configuration. -/

/-- A group `{id, name, members}`. -/
structure Group where
  gid : String
  gname : String
  members : List String
deriving DecidableEq, Repr

/-- The grouping-variant tournament state. -/
structure PState where
  players : List Player
  playerScores : String → Option Rat
  rounds : List Round
  rankBonus : List Rat
  groupsEnabled : Bool
  groups : List Group

/-- Grouping-change failures: `locked` models the disabled
`GroupSetupButton` once a round exists; `invalid` models the
`onSave` alert when enabling without 8 assigned members. -/
inductive GErr
  | locked
  | invalid
deriving DecidableEq, Repr

/-- The four empty default groups. -/
def defaultGroups : List Group :=
  [⟨"g1", "Group A", []⟩, ⟨"g2", "Group B", []⟩, ⟨"g3", "Group C", []⟩,
    ⟨"g4", "Group D", []⟩]

/-- The part_000 variant's `RoundDialog.validate`: 4 distinct non-empty
seat players and finite scores; the sum is deliberately NOT checked
("we don't enforce exact sum"). -/
def validateP (seat : List String) (nums : List (Option Int)) : Option VMsg :=
  if ((seat.filter (fun x => !(x == ""))).dedup).length ≠ 4 then
    some .seatInvalid
  else if nums.any (fun n => n.isNone) then some .scoreInvalid
  else none

/-- The committing branch of part_000's `RoundDialog.onSave`. -/
def applyCommitP (seat : List String) (nums : List (Option Int))
    (s : PState) : PState :=
  let raws := nums.map (fun n => n.getD 0)
  let seatWithRaw := List.zipWith (fun p r => SeatEntry.mk p r) seat raws
  let deltas := computeRoundDeltas seatWithRaw s.rankBonus
  { s with
    rounds := s.rounds ++ [⟨seat, raws, deltas⟩],
    playerScores := applyDeltas s.playerScores deltas }

/-- An attempt to change the grouping configuration: locked while any
round exists (the button is disabled); otherwise
`GroupSetupDialog.onSave` validates that enabling requires 8 assigned
members in total, and commits the enabled flag and groups. -/
def groupSave (enabled : Bool) (gs : List Group) (s : PState) :
    PState × Option GErr :=
  if s.rounds ≠ [] then (s, some GErr.locked)
  else if enabled = true ∧ (gs.map (fun g => g.members.length)).sum ≠ 8 then
    (s, some GErr.invalid)
  else ({ s with groupsEnabled := enabled, groups := gs }, none)

/-- Core operations of the grouping variant. -/
inductive POp
  | commit (seat : List String) (nums : List (Option Int))
  | setGrouping (enabled : Bool) (gs : List Group)
  | setBonus (tb : List Rat)
  | reset

/-- One operation attempt; a rejected attempt leaves the state as it
was (the dialog shows the error and nothing is committed). `reset`
(`resetAll`) zeroes the roster ledger, clears the round history and
restores the default, disabled grouping. -/
def stepP : POp → PState → PState
  | .commit seat nums, s =>
    match validateP seat nums with
    | some _ => s
    | none => applyCommitP seat nums s
  | .setGrouping enabled gs, s => (groupSave enabled gs s).1
  | .setBonus tb, s => if tb.length = 4 then { s with rankBonus := tb } else s
  | .reset, s =>
    { s with
      playerScores := fun q =>
        if q ∈ s.players.map (·.id) then some 0 else none,
      rounds := [],
      groupsEnabled := false,
      groups := defaultGroups }

/-- Run a sequence of operation attempts. -/
def runP : List POp → PState → PState
  | [], s => s
  | op :: ops, s => runP ops (stepP op s)

/-- Whether, after processing `ops` starting with flag `f`, at least one
round has been committed since the last full reset (`validateP` is
state-independent, so this is a function of the operations alone). -/
def committedSinceReset : List POp → Bool → Bool
  | [], f => f
  | op :: ops, f =>
    committedSinceReset ops
      (match op with
       | .reset => false
       | .commit seat nums => f || (validateP seat nums == none)
       | _ => f)

/-- A fresh grouping-variant tournament. -/
def initP (roster : List Player) : PState :=
  { players := roster,
    playerScores := fun q => if q ∈ roster.map (·.id) then some 0 else none,
    rounds := [],
    rankBonus := [20, 10, -10, -20],
    groupsEnabled := false,
    groups := defaultGroups }

section SortLemmas

variable {α β : Type} [LinearOrder β] (key : α → β)

lemma insertSortedDesc_perm (x : α) (m : List α) :
    (insertSortedDesc key x m).Perm (x :: m) := by
  induction m with
  | nil => exact List.Perm.refl _
  | cons y ys ih =>
    by_cases h : key x ≥ key y
    · simp only [insertSortedDesc, h, if_true]
      exact List.Perm.refl _
    · simp only [insertSortedDesc, h, if_false]
      exact (ih.cons y).trans (List.Perm.swap x y ys)

lemma sortDescBy_perm (l : List α) : (sortDescBy key l).Perm l := by
  induction l with
  | nil => exact List.Perm.refl _
  | cons x xs ih =>
    exact (insertSortedDesc_perm key x (sortDescBy key xs)).trans (ih.cons x)

lemma sortDescBy_length (l : List α) : (sortDescBy key l).length = l.length :=
  (sortDescBy_perm key l).length_eq

lemma insertSortedDesc_sorted (x : α) (m : List α)
    (hs : m.Pairwise (fun a b => key b ≤ key a)) :
    (insertSortedDesc key x m).Pairwise (fun a b => key b ≤ key a) := by
  induction m with
  | nil => simp [insertSortedDesc]
  | cons y ys ih =>
    rw [List.pairwise_cons] at hs
    by_cases h : key x ≥ key y
    · simp only [insertSortedDesc, h, if_true]
      refine List.Pairwise.cons ?_ (List.Pairwise.cons hs.1 hs.2)
      intro z hz
      rcases List.mem_cons.mp hz with hz | hz
      · exact hz ▸ h
      · exact le_trans (hs.1 z hz) h
    · simp only [insertSortedDesc, h, if_false]
      refine List.Pairwise.cons ?_ (ih hs.2)
      intro z hz
      have hz2 := (insertSortedDesc_perm key x ys).mem_iff.mp hz
      rcases List.mem_cons.mp hz2 with hz3 | hz3
      · subst hz3
        exact le_of_lt (lt_of_not_ge h)
      · exact hs.1 z hz3

lemma sortDescBy_sorted (l : List α) :
    (sortDescBy key l).Pairwise (fun a b => key b ≤ key a) := by
  induction l with
  | nil => simp [sortDescBy]
  | cons x xs ih => exact insertSortedDesc_sorted key x _ ih

/-- Stability: within each `key`-class, the sort preserves the input
order (elements of the insertee list keep their relative order, and an
inserted element is placed before every equal-key element). -/
lemma filter_insertSortedDesc (x : α) (m : List α) (c : β) :
    (insertSortedDesc key x m).filter (fun a => decide (key a = c)) =
      ((x :: m).filter (fun a => decide (key a = c))) := by
  induction m with
  | nil => rfl
  | cons y ys ih =>
    by_cases h : key x ≥ key y
    · simp only [insertSortedDesc, h, if_true]
    · simp only [insertSortedDesc, h, if_false]
      by_cases hy : key y = c <;> by_cases hx : key x = c
      · exact absurd (ge_of_eq (hx.trans hy.symm)) h
      · simp [List.filter_cons, hy, hx, ih]
      · simp [List.filter_cons, hy, hx, ih]
      · simp [List.filter_cons, hy, hx, ih]

lemma filter_sortDescBy (l : List α) (c : β) :
    (sortDescBy key l).filter (fun a => decide (key a = c)) =
      l.filter (fun a => decide (key a = c)) := by
  induction l with
  | nil => rfl
  | cons x xs ih =>
    rw [sortDescBy, filter_insertSortedDesc, List.filter_cons,
      List.filter_cons, ih]

end SortLemmas

section IdxLemmas

lemma idxOfLast_cons_some (q : String) (e : SeatEntry) (es : List SeatEntry)
    (i : Nat) (h : idxOfLast q es = some i) :
    idxOfLast q (e :: es) = some (i + 1) := by
  simp only [idxOfLast, h]

lemma idxOfLast_cons_none (q : String) (e : SeatEntry) (es : List SeatEntry)
    (h : idxOfLast q es = none) :
    idxOfLast q (e :: es) = if e.pid = q then some 0 else none := by
  simp only [idxOfLast, h]

lemma idxOfLast_eq_none_iff (q : String) (m : List SeatEntry) :
    idxOfLast q m = none ↔ q ∉ m.map (·.pid) := by
  induction m with
  | nil => simp [idxOfLast]
  | cons e es ih =>
    cases hrec : idxOfLast q es with
    | some i =>
      rw [idxOfLast_cons_some q e es i hrec]
      simp only [hrec] at ih
      have hmem : q ∈ es.map (·.pid) := by
        by_contra hq
        simp [hq] at ih
      simp [hmem]
    | none =>
      rw [idxOfLast_cons_none q e es hrec]
      simp only [hrec, true_iff] at ih
      by_cases he : e.pid = q
      · simp [he]
      · simp [he, ih, Ne.symm he]

lemma idxOfLast_some_lt (q : String) (m : List SeatEntry) (n : Nat)
    (h : idxOfLast q m = some n) : n < m.length := by
  induction m generalizing n with
  | nil => simp [idxOfLast] at h
  | cons e es ih =>
    cases hrec : idxOfLast q es with
    | some i =>
      rw [idxOfLast_cons_some q e es i hrec, Option.some.injEq] at h
      have := ih i hrec
      simp only [List.length_cons]
      omega
    | none =>
      rw [idxOfLast_cons_none q e es hrec] at h
      by_cases he : e.pid = q
      · rw [if_pos he, Option.some.injEq] at h
        simp [← h]
      · rw [if_neg he] at h
        exact absurd h (by simp)

lemma idxOfLast_getD_pid (q : String) (m : List SeatEntry) (n : Nat)
    (h : idxOfLast q m = some n) : (m.getD n ⟨"", 0⟩).pid = q := by
  induction m generalizing n with
  | nil => simp [idxOfLast] at h
  | cons e es ih =>
    cases hrec : idxOfLast q es with
    | some i =>
      rw [idxOfLast_cons_some q e es i hrec, Option.some.injEq] at h
      subst h
      simpa using ih i hrec
    | none =>
      rw [idxOfLast_cons_none q e es hrec] at h
      by_cases he : e.pid = q
      · rw [if_pos he, Option.some.injEq] at h
        subst h
        simpa using he
      · rw [if_neg he] at h
        exact absurd h (by simp)

lemma idxOfLast_insert_self (e : SeatEntry) (m : List SeatEntry)
    (hq : e.pid ∉ m.map (·.pid))
    (hs : m.Pairwise (fun a b => b.raw ≤ a.raw)) :
    idxOfLast e.pid (insertSortedDesc (·.raw) e m) =
      some (m.countP (fun y => decide (y.raw > e.raw))) := by
  induction m with
  | nil => simp [insertSortedDesc, idxOfLast]
  | cons y ys ih =>
    rw [List.pairwise_cons] at hs
    simp only [List.map_cons, List.mem_cons] at hq
    push_neg at hq
    by_cases h : e.raw ≥ y.raw
    · simp only [insertSortedDesc, h, if_true]
      have hnone : idxOfLast e.pid (y :: ys) = none := by
        rw [idxOfLast_eq_none_iff]
        simp only [List.map_cons, List.mem_cons]
        push_neg
        exact ⟨hq.1, hq.2⟩
      have hcnt : (y :: ys).countP (fun z => decide (z.raw > e.raw)) = 0 := by
        rw [List.countP_eq_zero]
        intro z hz
        rcases List.mem_cons.mp hz with hz | hz
        · subst hz
          simp only [decide_eq_true_eq]
          omega
        · have := hs.1 z hz
          simp only [decide_eq_true_eq]
          omega
      rw [hcnt, idxOfLast_cons_none e.pid e (y :: ys) hnone, if_pos rfl]
    · simp only [insertSortedDesc, h, if_false]
      have hrec := ih hq.2 hs.2
      rw [idxOfLast_cons_some e.pid y _ _ hrec]
      have hcnt : (y :: ys).countP (fun z => decide (z.raw > e.raw)) =
          ys.countP (fun z => decide (z.raw > e.raw)) + 1 := by
        rw [List.countP_cons]
        simp only [decide_eq_true_eq]
        rw [if_pos (by omega)]
      rw [hcnt]

lemma idxOfLast_insert_other (e : SeatEntry) (m : List SeatEntry) (q : String)
    (hq : q ≠ e.pid)
    (hs : m.Pairwise (fun a b => b.raw ≤ a.raw)) :
    idxOfLast q (insertSortedDesc (·.raw) e m) =
      (idxOfLast q m).map
        (fun i =>
          if m.countP (fun y => decide (y.raw > e.raw)) ≤ i then i + 1 else i) := by
  induction m with
  | nil =>
    simp [insertSortedDesc, idxOfLast, Ne.symm hq]
  | cons y ys ih =>
    rw [List.pairwise_cons] at hs
    by_cases h : e.raw ≥ y.raw
    · simp only [insertSortedDesc, h, if_true]
      have hcnt : (y :: ys).countP (fun z => decide (z.raw > e.raw)) = 0 := by
        rw [List.countP_eq_zero]
        intro z hz
        rcases List.mem_cons.mp hz with hz | hz
        · subst hz
          simp only [decide_eq_true_eq]
          omega
        · have := hs.1 z hz
          simp only [decide_eq_true_eq]
          omega
      rw [hcnt]
      cases hm : idxOfLast q (y :: ys) with
      | some i =>
        rw [idxOfLast_cons_some q e _ _ hm]
        simp
      | none =>
        rw [idxOfLast_cons_none q e _ hm, if_neg (Ne.symm hq)]
        simp
    · simp only [insertSortedDesc, h, if_false]
      have hrec := ih hs.2
      have hcnt : (y :: ys).countP (fun z => decide (z.raw > e.raw)) =
          ys.countP (fun z => decide (z.raw > e.raw)) + 1 := by
        rw [List.countP_cons]
        simp only [decide_eq_true_eq]
        rw [if_pos (by omega)]
      cases hys : idxOfLast q ys with
      | some i =>
        rw [hys] at hrec
        simp only [Option.map_some'] at hrec
        rw [idxOfLast_cons_some q y _ _ hrec,
          idxOfLast_cons_some q y _ _ hys, hcnt]
        simp only [Option.map_some', Option.some.injEq]
        split_ifs <;> omega
      | none =>
        rw [hys] at hrec
        simp only [Option.map_none'] at hrec
        rw [idxOfLast_cons_none q y _ hrec, idxOfLast_cons_none q y _ hys,
          hcnt]
        by_cases hy : y.pid = q
        · simp [hy]
        · simp [hy]

end IdxLemmas

section CountLemmas

lemma countP_gt_mono (rs : List Int) (c e : Int) (h : e ≤ c) :
    rs.countP (fun r => decide (r > c)) ≤ rs.countP (fun r => decide (r > e)) := by
  induction rs with
  | nil => simp
  | cons r rs ih =>
    simp only [List.countP_cons, decide_eq_true_eq]
    split_ifs <;> omega

lemma countP_gt_add_eq_le (rs : List Int) (c e : Int) (h : e < c) :
    rs.countP (fun r => decide (r > c)) + rs.countP (fun r => decide (r = c)) ≤
      rs.countP (fun r => decide (r > e)) := by
  induction rs with
  | nil => simp
  | cons r rs ih =>
    simp only [List.countP_cons, decide_eq_true_eq]
    split_ifs <;> omega

lemma countP_eq_take_lt (rs : List Int) (j : Nat) (hj : j < rs.length) :
    (rs.take j).countP (fun r => decide (r = rs.getD j 0)) <
      rs.countP (fun r => decide (r = rs.getD j 0)) := by
  induction rs generalizing j with
  | nil => simp at hj
  | cons r rs ih =>
    cases j with
    | zero =>
      simp [List.getD_cons_zero, List.countP_cons]
    | succ j =>
      have hj' : j < rs.length := by simpa using hj
      have := ih j hj'
      simp only [List.take_succ_cons, List.getD_cons_succ, List.countP_cons,
        decide_eq_true_eq]
      split_ifs <;> omega

end CountLemmas

/-- Key characterization: the rank index the source computes for the
entry at input position `k` (the position of that entry in the stable
descending sort, read back through the last-binding-wins pid table) is
exactly the spec-side stable rank `rankOf`. -/
theorem idxOfLast_sortByRawDesc_eq_rankOf (l : List SeatEntry)
    (hl : (l.map (·.pid)).Nodup) (k : Nat) (hk : k < l.length) :
    idxOfLast ((l.get ⟨k, hk⟩).pid) (sortByRawDesc l) =
      some (rankOf (l.map (·.raw)) k) := by
  induction l generalizing k with
  | nil => exact absurd hk (by simp)
  | cons e es ih =>
    rw [List.map_cons, List.nodup_cons] at hl
    have hsortcons : sortByRawDesc (e :: es) =
        insertSortedDesc (·.raw) e (sortByRawDesc es) := rfl
    have hsorted : (sortByRawDesc es).Pairwise (fun a b => b.raw ≤ a.raw) :=
      sortDescBy_sorted (α := SeatEntry) (·.raw) es
    have hperm : (sortByRawDesc es).Perm es :=
      sortDescBy_perm (α := SeatEntry) (·.raw) es
    cases k with
    | zero =>
      have hmem : e.pid ∉ (sortByRawDesc es).map (·.pid) := by
        intro hx
        exact hl.1 ((hperm.map (·.pid)).mem_iff.mp hx)
      rw [show ((e :: es).get ⟨0, hk⟩) = e from rfl, hsortcons,
        idxOfLast_insert_self e _ hmem hsorted,
        hperm.countP_eq (fun y => decide (y.raw > e.raw))]
      have : rankOf ((e :: es).map (·.raw)) 0 =
          es.countP (fun y => decide (y.raw > e.raw)) := by
        simp only [rankOf, List.map_cons, List.getD_cons_zero,
          List.take_zero, List.countP_nil, List.countP_cons,
          List.countP_map, decide_eq_true_eq]
        rw [if_neg (by omega)]
        simp only [Nat.add_zero]
        rfl
      rw [this]
    | succ j =>
      have hj : j < es.length := by simpa using hk
      have hjr : j < (es.map (·.raw)).length := by simpa using hj
      have hget : ((e :: es).get ⟨j + 1, hk⟩) = es.get ⟨j, hj⟩ := rfl
      have hqmem : (es.get ⟨j, hj⟩).pid ∈ es.map (·.pid) :=
        List.mem_map_of_mem _ (es.get_mem _ _)
      have hqe : (es.get ⟨j, hj⟩).pid ≠ e.pid := by
        intro hx
        exact hl.1 (hx ▸ hqmem)
      rw [hget, hsortcons, idxOfLast_insert_other e _ _ hqe hsorted,
        ih hl.2 j hj]
      rw [hperm.countP_eq (fun y => decide (y.raw > e.raw))]
      simp only [Option.map_some', Option.some.injEq]
      -- now pure counting arithmetic
      have hC : es.countP (fun y => decide (y.raw > e.raw)) =
          (es.map (·.raw)).countP (fun r => decide (r > e.raw)) := by
        rw [List.countP_map]
        rfl
      rw [hC]
      set rs := es.map (·.raw) with hrs
      set c := rs.getD j 0 with hc
      have hexp : rankOf ((e :: es).map (·.raw)) (j + 1) =
          (if e.raw > c then 1 else 0) +
            rs.countP (fun r => decide (r > c)) +
            ((if e.raw = c then 1 else 0) +
              (rs.take j).countP (fun r => decide (r = c))) := by
        simp only [rankOf, List.map_cons, List.getD_cons_succ,
          List.take_succ_cons, List.countP_cons, decide_eq_true_eq, ← hrs,
          ← hc]
        omega
      rw [hexp]
      simp only [rankOf, ← hrs, ← hc]
      rcases lt_trichotomy e.raw c with hec | hec | hec
      · have k1 := countP_gt_add_eq_le rs c e.raw hec
        have k2 := countP_eq_take_lt rs j hjr
        rw [← hc] at k2
        split_ifs <;> omega
      · have k1 : rs.countP (fun r => decide (r > e.raw)) =
            rs.countP (fun r => decide (r > c)) := by rw [hec]
        split_ifs <;> omega
      · have k1 := countP_gt_mono rs e.raw c (le_of_lt hec)
        split_ifs <;> omega

section FourSeatLemmas

/-- Tie monotonicity of the spec-side rank: among entries with equal
raw score, an earlier input position gets a strictly smaller rank. -/
lemma countP_eq_take_mono (rs : List Int) (c : Int) (i j : Nat)
    (hij : i < j) (hj : j ≤ rs.length) (hc : rs.getD i 0 = c) :
    (rs.take i).countP (fun r => decide (r = c)) <
      (rs.take j).countP (fun r => decide (r = c)) := by
  induction rs generalizing i j with
  | nil => simp at hj; omega
  | cons r rs ih =>
    cases i with
    | zero =>
      cases j with
      | zero => omega
      | succ j =>
        rw [List.getD_cons_zero] at hc
        simp only [List.take_zero, List.countP_nil, List.take_succ_cons,
          List.countP_cons, decide_eq_true_eq]
        rw [if_pos hc]
        omega
    | succ i =>
      cases j with
      | zero => omega
      | succ j =>
        rw [List.getD_cons_succ] at hc
        have hj' : j ≤ rs.length := by simpa using hj
        have := ih i j (by omega) hj' hc
        simp only [List.take_succ_cons, List.countP_cons, decide_eq_true_eq]
        split_ifs <;> omega

lemma rankOf_tie_lt (raws : List Int) (i j : Nat) (hij : i < j)
    (hj : j ≤ raws.length)
    (heq : raws.getD i 0 = raws.getD j 0) :
    rankOf raws i < rankOf raws j := by
  unfold rankOf
  rw [heq]
  have := countP_eq_take_mono raws (raws.getD j 0) i j hij hj heq
  omega

/-- The four rank indices computed by the source for a four-entry round
with pairwise distinct pids: each is the spec-side `rankOf`. -/
lemma idxOfLast_four (p0 p1 p2 p3 : String) (r0 r1 r2 r3 : Int)
    (h01 : p0 ≠ p1) (h02 : p0 ≠ p2) (h03 : p0 ≠ p3)
    (h12 : p1 ≠ p2) (h13 : p1 ≠ p3) (h23 : p2 ≠ p3) :
    idxOfLast p0 (sortByRawDesc [⟨p0, r0⟩, ⟨p1, r1⟩, ⟨p2, r2⟩, ⟨p3, r3⟩]) =
        some (rankOf [r0, r1, r2, r3] 0) ∧
      idxOfLast p1 (sortByRawDesc [⟨p0, r0⟩, ⟨p1, r1⟩, ⟨p2, r2⟩, ⟨p3, r3⟩]) =
        some (rankOf [r0, r1, r2, r3] 1) ∧
      idxOfLast p2 (sortByRawDesc [⟨p0, r0⟩, ⟨p1, r1⟩, ⟨p2, r2⟩, ⟨p3, r3⟩]) =
        some (rankOf [r0, r1, r2, r3] 2) ∧
      idxOfLast p3 (sortByRawDesc [⟨p0, r0⟩, ⟨p1, r1⟩, ⟨p2, r2⟩, ⟨p3, r3⟩]) =
        some (rankOf [r0, r1, r2, r3] 3) := by
  have hl : (([⟨p0, r0⟩, ⟨p1, r1⟩, ⟨p2, r2⟩, ⟨p3, r3⟩] :
      List SeatEntry).map (·.pid)).Nodup := by
    simp [h01, h02, h03, h12, h13, h23]
  exact ⟨idxOfLast_sortByRawDesc_eq_rankOf _ hl 0 (by simp),
    idxOfLast_sortByRawDesc_eq_rankOf _ hl 1 (by simp),
    idxOfLast_sortByRawDesc_eq_rankOf _ hl 2 (by simp),
    idxOfLast_sortByRawDesc_eq_rankOf _ hl 3 (by simp)⟩

lemma rankOf_four_lt (p0 p1 p2 p3 : String) (r0 r1 r2 r3 : Int)
    (h01 : p0 ≠ p1) (h02 : p0 ≠ p2) (h03 : p0 ≠ p3)
    (h12 : p1 ≠ p2) (h13 : p1 ≠ p3) (h23 : p2 ≠ p3) :
    rankOf [r0, r1, r2, r3] 0 < 4 ∧ rankOf [r0, r1, r2, r3] 1 < 4 ∧
      rankOf [r0, r1, r2, r3] 2 < 4 ∧ rankOf [r0, r1, r2, r3] 3 < 4 := by
  obtain ⟨h0, h1, h2, h3⟩ :=
    idxOfLast_four p0 p1 p2 p3 r0 r1 r2 r3 h01 h02 h03 h12 h13 h23
  have hlen : (sortByRawDesc [⟨p0, r0⟩, ⟨p1, r1⟩, ⟨p2, r2⟩, ⟨p3, r3⟩]).length =
      4 := by
    rw [sortByRawDesc, sortDescBy_length]
    rfl
  have k0 := idxOfLast_some_lt _ _ _ h0
  have k1 := idxOfLast_some_lt _ _ _ h1
  have k2 := idxOfLast_some_lt _ _ _ h2
  have k3 := idxOfLast_some_lt _ _ _ h3
  rw [hlen] at k0 k1 k2 k3
  exact ⟨k0, k1, k2, k3⟩

end FourSeatLemmas

/-- Shared computation: on a four-entry round with pairwise distinct
pids, `computeRoundDeltas` returns, in input order, the spec-side
records whose bonus is the table entry at the spec-side stable rank. -/
lemma computeRoundDeltas_four (p0 p1 p2 p3 : String) (r0 r1 r2 r3 : Int)
    (tb : List Rat)
    (h01 : p0 ≠ p1) (h02 : p0 ≠ p2) (h03 : p0 ≠ p3)
    (h12 : p1 ≠ p2) (h13 : p1 ≠ p3) (h23 : p2 ≠ p3) :
    computeRoundDeltas [⟨p0, r0⟩, ⟨p1, r1⟩, ⟨p2, r2⟩, ⟨p3, r3⟩] tb =
      [roundRecord p0 r0 (tb.getD (rankOf [r0, r1, r2, r3] 0) 0),
        roundRecord p1 r1 (tb.getD (rankOf [r0, r1, r2, r3] 1) 0),
        roundRecord p2 r2 (tb.getD (rankOf [r0, r1, r2, r3] 2) 0),
        roundRecord p3 r3 (tb.getD (rankOf [r0, r1, r2, r3] 3) 0)] := by
  obtain ⟨h0, h1, h2, h3⟩ :=
    idxOfLast_four p0 p1 p2 p3 r0 r1 r2 r3 h01 h02 h03 h12 h13 h23
  simp [computeRoundDeltas, bonusAt, h0, h1, h2, h3, roundRecord]

/-- C1: for 4 seat entries with pairwise distinct pids, finite integer
raw scores and a 4-entry rank-bonus table, `computeRoundDeltas` returns
4 records in input order with `base = (rawScore - 30000) / 1000`,
`bonus` = the table entry at that player's rank index (rank by rawScore
descending, stable), and `delta = base + bonus`; each rank index is one
of 0..3, so `List.getD _ _ 0` is exactly the table entry there. -/
theorem c1_computeRoundDeltas_spec (p0 p1 p2 p3 : String)
    (r0 r1 r2 r3 : Int) (b0 b1 b2 b3 : Rat)
    (h01 : p0 ≠ p1) (h02 : p0 ≠ p2) (h03 : p0 ≠ p3)
    (h12 : p1 ≠ p2) (h13 : p1 ≠ p3) (h23 : p2 ≠ p3) :
    computeRoundDeltas [⟨p0, r0⟩, ⟨p1, r1⟩, ⟨p2, r2⟩, ⟨p3, r3⟩]
        [b0, b1, b2, b3] =
      [roundRecord p0 r0 ([b0, b1, b2, b3].getD (rankOf [r0, r1, r2, r3] 0) 0),
        roundRecord p1 r1 ([b0, b1, b2, b3].getD (rankOf [r0, r1, r2, r3] 1) 0),
        roundRecord p2 r2 ([b0, b1, b2, b3].getD (rankOf [r0, r1, r2, r3] 2) 0),
        roundRecord p3 r3
          ([b0, b1, b2, b3].getD (rankOf [r0, r1, r2, r3] 3) 0)] ∧
      rankOf [r0, r1, r2, r3] 0 < 4 ∧ rankOf [r0, r1, r2, r3] 1 < 4 ∧
      rankOf [r0, r1, r2, r3] 2 < 4 ∧ rankOf [r0, r1, r2, r3] 3 < 4 :=
  ⟨computeRoundDeltas_four p0 p1 p2 p3 r0 r1 r2 r3 [b0, b1, b2, b3]
      h01 h02 h03 h12 h13 h23,
    rankOf_four_lt p0 p1 p2 p3 r0 r1 r2 r3 h01 h02 h03 h12 h13 h23⟩

/-- Witness for C1 at the spec's worked example: seats A/B/C/D with raws
45000/33000/25000/20000 and bonus table `[20, 10, -10, -20]`. -/
theorem c1_witness :
    computeRoundDeltas
        [⟨"A", 45000⟩, ⟨"B", 33000⟩, ⟨"C", 25000⟩, ⟨"D", 20000⟩]
        [20, 10, -10, -20] =
      [roundRecord "A" 45000
          ([20, 10, -10, -20].getD (rankOf [45000, 33000, 25000, 20000] 0) 0),
        roundRecord "B" 33000
          ([20, 10, -10, -20].getD (rankOf [45000, 33000, 25000, 20000] 1) 0),
        roundRecord "C" 25000
          ([20, 10, -10, -20].getD (rankOf [45000, 33000, 25000, 20000] 2) 0),
        roundRecord "D" 20000
          ([20, 10, -10, -20].getD (rankOf [45000, 33000, 25000, 20000] 3)
            0)] ∧
      rankOf [45000, 33000, 25000, 20000] 0 < 4 ∧
      rankOf [45000, 33000, 25000, 20000] 1 < 4 ∧
      rankOf [45000, 33000, 25000, 20000] 2 < 4 ∧
      rankOf [45000, 33000, 25000, 20000] 3 < 4 :=
  c1_computeRoundDeltas_spec "A" "B" "C" "D" 45000 33000 25000 20000
    20 10 (-10) (-20) (by decide) (by decide) (by decide) (by decide)
    (by decide) (by decide)

/-- C10: `computeRoundDeltas` is total over rank-bonus tables of any
length: the bonus is always `tb.getD rank 0`, and whenever the table is
too short for a rank index the bonus falls back to `0` (so the delta is
just the base), rather than being undefined. -/
theorem c10_bonus_fallback (p0 p1 p2 p3 : String) (r0 r1 r2 r3 : Int)
    (tb : List Rat)
    (h01 : p0 ≠ p1) (h02 : p0 ≠ p2) (h03 : p0 ≠ p3)
    (h12 : p1 ≠ p2) (h13 : p1 ≠ p3) (h23 : p2 ≠ p3) :
    computeRoundDeltas [⟨p0, r0⟩, ⟨p1, r1⟩, ⟨p2, r2⟩, ⟨p3, r3⟩] tb =
      [roundRecord p0 r0 (tb.getD (rankOf [r0, r1, r2, r3] 0) 0),
        roundRecord p1 r1 (tb.getD (rankOf [r0, r1, r2, r3] 1) 0),
        roundRecord p2 r2 (tb.getD (rankOf [r0, r1, r2, r3] 2) 0),
        roundRecord p3 r3 (tb.getD (rankOf [r0, r1, r2, r3] 3) 0)] ∧
      (tb.length ≤ rankOf [r0, r1, r2, r3] 0 →
        tb.getD (rankOf [r0, r1, r2, r3] 0) 0 = 0) ∧
      (tb.length ≤ rankOf [r0, r1, r2, r3] 1 →
        tb.getD (rankOf [r0, r1, r2, r3] 1) 0 = 0) ∧
      (tb.length ≤ rankOf [r0, r1, r2, r3] 2 →
        tb.getD (rankOf [r0, r1, r2, r3] 2) 0 = 0) ∧
      (tb.length ≤ rankOf [r0, r1, r2, r3] 3 →
        tb.getD (rankOf [r0, r1, r2, r3] 3) 0 = 0) :=
  ⟨computeRoundDeltas_four p0 p1 p2 p3 r0 r1 r2 r3 tb
      h01 h02 h03 h12 h13 h23,
    fun h => List.getD_eq_default _ _ h,
    fun h => List.getD_eq_default _ _ h,
    fun h => List.getD_eq_default _ _ h,
    fun h => List.getD_eq_default _ _ h⟩

/-- Witness for C10 with an empty bonus table: every bonus lookup is out
of range and falls back to 0. -/
theorem c10_witness :
    computeRoundDeltas
        [⟨"A", 45000⟩, ⟨"B", 33000⟩, ⟨"C", 25000⟩, ⟨"D", 20000⟩]
        ([] : List Rat) =
      [roundRecord "A" 45000
          (([] : List Rat).getD (rankOf [45000, 33000, 25000, 20000] 0) 0),
        roundRecord "B" 33000
          (([] : List Rat).getD (rankOf [45000, 33000, 25000, 20000] 1) 0),
        roundRecord "C" 25000
          (([] : List Rat).getD (rankOf [45000, 33000, 25000, 20000] 2) 0),
        roundRecord "D" 20000
          (([] : List Rat).getD (rankOf [45000, 33000, 25000, 20000] 3)
            0)] ∧
      (([] : List Rat).length ≤ rankOf [45000, 33000, 25000, 20000] 0 →
        ([] : List Rat).getD (rankOf [45000, 33000, 25000, 20000] 0) 0 = 0) ∧
      (([] : List Rat).length ≤ rankOf [45000, 33000, 25000, 20000] 1 →
        ([] : List Rat).getD (rankOf [45000, 33000, 25000, 20000] 1) 0 = 0) ∧
      (([] : List Rat).length ≤ rankOf [45000, 33000, 25000, 20000] 2 →
        ([] : List Rat).getD (rankOf [45000, 33000, 25000, 20000] 2) 0 = 0) ∧
      (([] : List Rat).length ≤ rankOf [45000, 33000, 25000, 20000] 3 →
        ([] : List Rat).getD (rankOf [45000, 33000, 25000, 20000] 3) 0 = 0) :=
  c10_bonus_fallback "A" "B" "C" "D" 45000 33000 25000 20000 []
    (by decide) (by decide) (by decide) (by decide) (by decide) (by decide)

/-- C2: stable tie-break.  For any two input positions `i < j` whose
raw scores are equal (and pairwise distinct pids, the caller contract),
the rank index the source computes for each position is the spec-side
stable rank `rankOf`, and the index of the earlier position `i` is
strictly smaller (better) than the one of `j`; moreover, on the claim's
tie example `[(E,30000),(F,30000),(G,28000),(H,12000)]` with table
`[20,10,-10,-20]`, E's delta is 20 and F's delta is 10. -/
theorem c2_stable_tie_break (p0 p1 p2 p3 : String) (r0 r1 r2 r3 : Int)
    (h01 : p0 ≠ p1) (h02 : p0 ≠ p2) (h03 : p0 ≠ p3)
    (h12 : p1 ≠ p2) (h13 : p1 ≠ p3) (h23 : p2 ≠ p3)
    (i j : Nat) (hij : i < j) (hj : j < 4)
    (heq : [r0, r1, r2, r3].getD i 0 = [r0, r1, r2, r3].getD j 0) :
    idxOfLast ([p0, p1, p2, p3].getD i "")
        (sortByRawDesc [⟨p0, r0⟩, ⟨p1, r1⟩, ⟨p2, r2⟩, ⟨p3, r3⟩]) =
      some (rankOf [r0, r1, r2, r3] i) ∧
    idxOfLast ([p0, p1, p2, p3].getD j "")
        (sortByRawDesc [⟨p0, r0⟩, ⟨p1, r1⟩, ⟨p2, r2⟩, ⟨p3, r3⟩]) =
      some (rankOf [r0, r1, r2, r3] j) ∧
    rankOf [r0, r1, r2, r3] i < rankOf [r0, r1, r2, r3] j ∧
      ((computeRoundDeltas
          [⟨"E", 30000⟩, ⟨"F", 30000⟩, ⟨"G", 28000⟩, ⟨"H", 12000⟩]
          [20, 10, -10, -20]).getD 0 ⟨"", 0, 0, 0, 0⟩).delta = 20 ∧
      ((computeRoundDeltas
          [⟨"E", 30000⟩, ⟨"F", 30000⟩, ⟨"G", 28000⟩, ⟨"H", 12000⟩]
          [20, 10, -10, -20]).getD 1 ⟨"", 0, 0, 0, 0⟩).delta = 10 := by
  obtain ⟨h0, h1, h2, h3⟩ :=
    idxOfLast_four p0 p1 p2 p3 r0 r1 r2 r3 h01 h02 h03 h12 h13 h23
  have hi : i < 4 := lt_trans hij hj
  refine ⟨?_, ?_,
    rankOf_tie_lt [r0, r1, r2, r3] i j hij
      (by simp only [List.length_cons, List.length_nil]; omega) heq,
    ?_, ?_⟩
  · interval_cases i <;> first | exact h0 | exact h1 | exact h2 | exact h3
  · interval_cases j <;> first | exact h0 | exact h1 | exact h2 | exact h3
  · norm_num [computeRoundDeltas, sortByRawDesc, sortDescBy,
      insertSortedDesc, idxOfLast, bonusAt]
    decide
  · norm_num [computeRoundDeltas, sortByRawDesc, sortDescBy,
      insertSortedDesc, idxOfLast, bonusAt]
    decide

/-- Witness for C2 at the tie example itself (E and F both on 30000,
positions 0 and 1): E gets rank 0, F gets rank 1, and their deltas are
20 and 10. -/
theorem c2_witness :
    idxOfLast (["E", "F", "G", "H"].getD 0 "")
        (sortByRawDesc
          [⟨"E", 30000⟩, ⟨"F", 30000⟩, ⟨"G", 28000⟩, ⟨"H", 12000⟩]) =
      some (rankOf [30000, 30000, 28000, 12000] 0) ∧
    idxOfLast (["E", "F", "G", "H"].getD 1 "")
        (sortByRawDesc
          [⟨"E", 30000⟩, ⟨"F", 30000⟩, ⟨"G", 28000⟩, ⟨"H", 12000⟩]) =
      some (rankOf [30000, 30000, 28000, 12000] 1) ∧
    rankOf [30000, 30000, 28000, 12000] 0 <
      rankOf [30000, 30000, 28000, 12000] 1 ∧
      ((computeRoundDeltas
          [⟨"E", 30000⟩, ⟨"F", 30000⟩, ⟨"G", 28000⟩, ⟨"H", 12000⟩]
          [20, 10, -10, -20]).getD 0 ⟨"", 0, 0, 0, 0⟩).delta = 20 ∧
      ((computeRoundDeltas
          [⟨"E", 30000⟩, ⟨"F", 30000⟩, ⟨"G", 28000⟩, ⟨"H", 12000⟩]
          [20, 10, -10, -20]).getD 1 ⟨"", 0, 0, 0, 0⟩).delta = 10 :=
  c2_stable_tie_break "E" "F" "G" "H" 30000 30000 28000 12000
    (by decide) (by decide) (by decide) (by decide) (by decide) (by decide)
    0 1 (by omega) (by omega) (by decide)

set_option maxHeartbeats 1000000 in
lemma getD4_sum (b0 b1 b2 b3 : Rat) (n0 n1 n2 n3 : Nat)
    (h0 : n0 < 4) (h1 : n1 < 4) (h2 : n2 < 4) (h3 : n3 < 4)
    (d01 : n0 ≠ n1) (d02 : n0 ≠ n2) (d03 : n0 ≠ n3)
    (d12 : n1 ≠ n2) (d13 : n1 ≠ n3) (d23 : n2 ≠ n3) :
    [b0, b1, b2, b3].getD n0 0 + [b0, b1, b2, b3].getD n1 0 +
        [b0, b1, b2, b3].getD n2 0 + [b0, b1, b2, b3].getD n3 0 =
      b0 + b1 + b2 + b3 := by
  interval_cases n0 <;> interval_cases n1 <;> interval_cases n2 <;>
    interval_cases n3 <;> simp_all <;> ring

/-- C5: the four rank indices are pairwise distinct (the bonus table is
applied as a permutation), so the total delta of a round is the total
base plus the total of the bonus table. -/
theorem c5_total_delta (p0 p1 p2 p3 : String) (r0 r1 r2 r3 : Int)
    (b0 b1 b2 b3 : Rat)
    (h01 : p0 ≠ p1) (h02 : p0 ≠ p2) (h03 : p0 ≠ p3)
    (h12 : p1 ≠ p2) (h13 : p1 ≠ p3) (h23 : p2 ≠ p3) :
    ((computeRoundDeltas [⟨p0, r0⟩, ⟨p1, r1⟩, ⟨p2, r2⟩, ⟨p3, r3⟩]
        [b0, b1, b2, b3]).map (fun d => d.delta)).sum =
      (((r0 : Rat) - 30000) / 1000 + ((r1 : Rat) - 30000) / 1000 +
          ((r2 : Rat) - 30000) / 1000 + ((r3 : Rat) - 30000) / 1000) +
        (b0 + b1 + b2 + b3) := by
  rw [computeRoundDeltas_four p0 p1 p2 p3 r0 r1 r2 r3 [b0, b1, b2, b3]
    h01 h02 h03 h12 h13 h23]
  obtain ⟨k0, k1, k2, k3⟩ :=
    rankOf_four_lt p0 p1 p2 p3 r0 r1 r2 r3 h01 h02 h03 h12 h13 h23
  obtain ⟨h0, h1, h2, h3⟩ :=
    idxOfLast_four p0 p1 p2 p3 r0 r1 r2 r3 h01 h02 h03 h12 h13 h23
  have g0 := idxOfLast_getD_pid _ _ _ h0
  have g1 := idxOfLast_getD_pid _ _ _ h1
  have g2 := idxOfLast_getD_pid _ _ _ h2
  have g3 := idxOfLast_getD_pid _ _ _ h3
  have d01 : rankOf [r0, r1, r2, r3] 0 ≠ rankOf [r0, r1, r2, r3] 1 := by
    intro hx
    rw [hx] at g0
    exact h01 (g0.symm.trans g1)
  have d02 : rankOf [r0, r1, r2, r3] 0 ≠ rankOf [r0, r1, r2, r3] 2 := by
    intro hx
    rw [hx] at g0
    exact h02 (g0.symm.trans g2)
  have d03 : rankOf [r0, r1, r2, r3] 0 ≠ rankOf [r0, r1, r2, r3] 3 := by
    intro hx
    rw [hx] at g0
    exact h03 (g0.symm.trans g3)
  have d12 : rankOf [r0, r1, r2, r3] 1 ≠ rankOf [r0, r1, r2, r3] 2 := by
    intro hx
    rw [hx] at g1
    exact h12 (g1.symm.trans g2)
  have d13 : rankOf [r0, r1, r2, r3] 1 ≠ rankOf [r0, r1, r2, r3] 3 := by
    intro hx
    rw [hx] at g1
    exact h13 (g1.symm.trans g3)
  have d23 : rankOf [r0, r1, r2, r3] 2 ≠ rankOf [r0, r1, r2, r3] 3 := by
    intro hx
    rw [hx] at g2
    exact h23 (g2.symm.trans g3)
  have hs := getD4_sum b0 b1 b2 b3 _ _ _ _ k0 k1 k2 k3 d01 d02 d03 d12 d13
    d23
  simp only [List.map_cons, List.map_nil, List.sum_cons, List.sum_nil,
    roundRecord]
  linarith [hs]

/-- Witness for C5 at the spec's worked example. -/
theorem c5_witness :
    ((computeRoundDeltas
        [⟨"A", 45000⟩, ⟨"B", 33000⟩, ⟨"C", 25000⟩, ⟨"D", 20000⟩]
        [20, 10, -10, -20]).map (fun d => d.delta)).sum =
      (((45000 : Rat) - 30000) / 1000 + ((33000 : Rat) - 30000) / 1000 +
          ((25000 : Rat) - 30000) / 1000 + ((20000 : Rat) - 30000) / 1000) +
        (20 + 10 + -10 + -20) :=
  c5_total_delta "A" "B" "C" "D" 45000 33000 25000 20000 20 10 (-10) (-20)
    (by decide) (by decide) (by decide) (by decide) (by decide) (by decide)

/-- C6: the player leaderboard is a permutation of one entry per roster
player carrying `playerScores[p.id] || 0`, sorted by score descending,
with ties retaining roster iteration order (stable: every equal-score
class appears in roster order); and for every `topK` the rendered row
order is exactly the board — the divider position never reorders. -/
theorem c6_playerBoard_spec (players : List Player)
    (playerScores : String → Option Rat) :
    (playerBoard players playerScores).Perm
        (players.map
          (fun p => ⟨p.id, p.name, p.avatar, scoreOf playerScores p.id⟩)) ∧
      (playerBoard players playerScores).Pairwise
        (fun a b => b.score ≤ a.score) ∧
      (∀ c : Rat,
        (playerBoard players playerScores).filter
            (fun e => decide (e.score = c)) =
          (players.map
              (fun p =>
                (⟨p.id, p.name, p.avatar, scoreOf playerScores p.id⟩ :
                  BoardEntry))).filter
            (fun e => decide (e.score = c))) ∧
      (∀ k : Nat,
        leaderboardRows (playerBoard players playerScores) k =
          playerBoard players playerScores) :=
  ⟨sortDescBy_perm _ _, sortDescBy_sorted _ _,
    fun c => filter_sortDescBy _ _ c,
    fun k => List.take_append_drop k _⟩

section LedgerLemmas

lemma deltaSumFor_nil (p : String) : deltaSumFor [] p = 0 := rfl

lemma deltaSumFor_cons (d : Breakdown) (ds : List Breakdown) (p : String) :
    deltaSumFor (d :: ds) p =
      (if d.pid = p then d.delta else 0) + deltaSumFor ds p := by
  simp only [deltaSumFor, List.filter_cons]
  by_cases h : d.pid = p
  · simp [h]
  · simp [h]

lemma roundsSum_append (r1 r2 : List Round) (p : String) :
    roundsSum (r1 ++ r2) p = roundsSum r1 p + roundsSum r2 p := by
  simp [roundsSum, List.map_append, List.sum_append]

lemma roundsSum_zero (rounds : List Round) (p : String)
    (h : ∀ r ∈ rounds, ∀ b ∈ r.breakdown, b.pid ≠ p) :
    roundsSum rounds p = 0 := by
  induction rounds with
  | nil => rfl
  | cons r rs ih =>
    have hr : deltaSumFor r.breakdown p = 0 := by
      have : r.breakdown.filter (fun b => b.pid == p) = [] := by
        rw [List.filter_eq_nil_iff]
        intro b hb
        simpa using h r (List.mem_cons_self r rs) b hb
      simp [deltaSumFor, this]
    have ht := ih (fun r2 hr2 b hb => h r2 (List.mem_cons_of_mem r hr2) b hb)
    simp [roundsSum, List.map_cons, List.sum_cons] at ht ⊢
    simp [hr, ht]

lemma applyDeltas_getD (bs : List Breakdown) (m : String → Option Rat)
    (p : String) :
    ((applyDeltas m bs) p).getD 0 = (m p).getD 0 + deltaSumFor bs p := by
  induction bs generalizing m with
  | nil => simp [applyDeltas, deltaSumFor_nil]
  | cons d ds ih =>
    rw [applyDeltas, ih, deltaSumFor_cons]
    by_cases hp : p = d.pid
    · rw [if_pos hp, if_pos hp.symm]
      subst hp
      simp only [Option.getD_some]
      ring
    · rw [if_neg hp, if_neg (fun hx => hp hx.symm)]
      ring

lemma applyDeltas_isSome (bs : List Breakdown) (m : String → Option Rat)
    (p : String) :
    ((applyDeltas m bs) p).isSome =
      ((m p).isSome || bs.any (fun b => b.pid == p)) := by
  induction bs generalizing m with
  | nil => simp [applyDeltas]
  | cons d ds ih =>
    rw [applyDeltas, ih, List.any_cons]
    by_cases hp : p = d.pid
    · rw [if_pos hp]
      subst hp
      simp
    · rw [if_neg hp]
      have hne : (d.pid == p) = false := by
        rw [beq_eq_false_iff_ne]
        exact fun hx => hp hx.symm
      rw [hne]
      simp

lemma mem_computeRoundDeltas_pid (l : List SeatEntry) (tb : List Rat)
    (b : Breakdown) (hb : b ∈ computeRoundDeltas l tb) :
    b.pid ∈ l.map (·.pid) := by
  simp only [computeRoundDeltas, List.mem_map] at hb
  obtain ⟨e, he, rfl⟩ := hb
  exact List.mem_map_of_mem _ he

lemma mem_zipWith_seat (seat : List String) (raws : List Int) (e : SeatEntry)
    (he : e ∈ List.zipWith (fun p r => SeatEntry.mk p r) seat raws) :
    e.pid ∈ seat := by
  induction seat generalizing raws with
  | nil => simp at he
  | cons p ps ih =>
    cases raws with
    | nil => simp at he
    | cons r rs =>
      simp only [List.zipWith_cons_cons, List.mem_cons] at he
      rcases he with he | he
      · subst he
        exact List.mem_cons_self _ _
      · exact List.mem_cons_of_mem _ (ih rs he)

lemma stepA_preserves (op : Op) (s s2 : AppState)
    (h : stepA op s = some s2) (hinv : stateInv s) : stateInv s2 := by
  obtain ⟨hsub, hled⟩ := hinv
  cases op with
  | commit seat nums =>
    simp only [stepA] at h
    split_ifs at h with hc
    rw [Option.some.injEq] at h
    subst h
    obtain ⟨hlen1, hlen2, hval, hseat⟩ := hc
    constructor
    · intro p hp
      simp only [applyCommit, applyDeltas_isSome]
      simp only [applyCommit] at hp
      rw [hsub p hp]
      simp
    · intro p hp
      simp only [applyCommit] at hp ⊢
      rw [applyDeltas_getD, roundsSum_append]
      simp only [roundsSum, List.map_cons, List.map_nil, List.sum_cons,
        List.sum_nil, add_zero]
      rw [applyDeltas_isSome] at hp
      by_cases hold : (s.playerScores p).isSome = true
      · rw [hled p hold]
        rfl
      · simp only [hold, Bool.false_or] at hp
        exfalso
        apply hold
        rw [List.any_eq_true] at hp
        obtain ⟨b, hb, hbp⟩ := hp
        rw [beq_iff_eq] at hbp
        have hpid := mem_computeRoundDeltas_pid _ _ b hb
        rw [hbp] at hpid
        rw [List.mem_map] at hpid
        obtain ⟨e, he, hpe⟩ := hpid
        have := mem_zipWith_seat _ _ e he
        rw [hpe] at this
        exact hsub p (hseat p this)
  | addPlayer pid name avatar =>
    simp only [stepA] at h
    split_ifs at h with hc
    rw [Option.some.injEq] at h
    subst h
    obtain ⟨hname, hfresh, hscore, hrounds⟩ := hc
    constructor
    · intro p hp
      simp only [List.map_append, List.map_cons, List.map_nil,
        List.mem_append, List.mem_cons, List.not_mem_nil, or_false] at hp
      by_cases hppid : p = pid
      · simp [hppid]
      · rcases hp with hp | hp
        · simp only [if_neg hppid]
          exact hsub p hp
        · exact absurd hp hppid
    · intro p hp
      by_cases hppid : p = pid
      · subst hppid
        show (if p = p then some (0 : Rat) else s.playerScores p).getD 0 =
          roundsSum s.rounds p
        rw [if_pos rfl]
        exact (roundsSum_zero s.rounds p
          (fun r hr b hb => hrounds r hr b hb)).symm
      · simp only [if_neg hppid] at hp ⊢
        exact hled p hp
  | removePlayer pid =>
    simp only [stepA] at h
    split_ifs at h with hc
    rw [Option.some.injEq] at h
    subst h
    constructor
    · intro p hp
      simp only [List.mem_map, List.mem_filter] at hp
      obtain ⟨q, ⟨hq1, hq2⟩, rfl⟩ := hp
      simp only [Bool.not_eq_true', beq_eq_false_iff_ne] at hq2
      show (if q.id = pid then none else s.playerScores q.id).isSome = true
      rw [if_neg hq2]
      exact hsub q.id (List.mem_map_of_mem _ hq1)
    · intro p hp
      by_cases hppid : p = pid
      · subst hppid
        simp only [if_pos rfl] at hp
        simp at hp
      · simp only [if_neg hppid] at hp ⊢
        exact hled p hp
  | reset =>
    simp only [stepA, Option.some.injEq] at h
    subst h
    constructor
    · intro p hp
      have hp2 : p ∈ s.players.map (·.id) := hp
      show (if p ∈ s.players.map (·.id) then some (0 : Rat) else none).isSome =
        true
      rw [if_pos hp2]
      rfl
    · intro p hp
      show (if p ∈ s.players.map (·.id) then some (0 : Rat) else none).getD 0 =
        roundsSum [] p
      by_cases hmem : p ∈ s.players.map (·.id)
      · rw [if_pos hmem]
        rfl
      · have hp2 : ((fun q =>
            if q ∈ s.players.map (·.id) then some (0 : Rat) else none) p).isSome =
            true := hp
        simp only [if_neg hmem] at hp2
        simp at hp2
  | settings tb k =>
    simp only [stepA] at h
    split_ifs at h with hc
    rw [Option.some.injEq] at h
    subst h
    exact ⟨hsub, hled⟩

lemma runA_preserves (ops : List Op) (s s2 : AppState)
    (h : runA ops s = some s2) (hinv : stateInv s) : stateInv s2 := by
  induction ops generalizing s with
  | nil =>
    simp only [runA, Option.some.injEq] at h
    subst h
    exact hinv
  | cons op ops ih =>
    simp only [runA] at h
    cases hstep : stepA op s with
    | some s3 =>
      rw [hstep] at h
      exact ih s3 h (stepA_preserves op s s3 hstep hinv)
    | none =>
      rw [hstep] at h
      exact absurd h (by simp)

lemma initA_inv (roster : List Player) : stateInv (initA roster) := by
  constructor
  · intro p hp
    have hp2 : p ∈ roster.map (·.id) := hp
    show (if p ∈ roster.map (·.id) then some (0 : Rat) else none).isSome = true
    rw [if_pos hp2]
    rfl
  · intro p hp
    show (if p ∈ roster.map (·.id) then some (0 : Rat) else none).getD 0 =
      roundsSum (initA roster).rounds p
    by_cases hmem : p ∈ roster.map (·.id)
    · rw [if_pos hmem]
      rfl
    · have hp2 : ((fun q =>
          if q ∈ roster.map (·.id) then some (0 : Rat) else none) p).isSome =
          true := hp
      simp only [if_neg hmem] at hp2
      simp at hp2

end LedgerLemmas

/-- C3: after any sequence of core operations (round commits, player
additions, player removals, resets, settings updates) from a fresh
tournament, every player present in the ledger holds exactly the sum of
that player's deltas over all committed rounds' breakdowns. -/
theorem c3_ledger_invariant (roster : List Player) (ops : List Op)
    (s : AppState) (hrun : runA ops (initA roster) = some s) :
    ∀ p : String, (s.playerScores p).isSome = true →
      (s.playerScores p).getD 0 = roundsSum s.rounds p :=
  (runA_preserves ops (initA roster) s hrun (initA_inv roster)).2

/-- Witness for C3: one committed round (sum 100000) from a fresh
4-player roster; the ledger entry of seat-east player "a" equals that
player's total round delta. -/
theorem c3_witness :
    (((runA
          [Op.commit ["a", "b", "c", "d"]
            [some 45000, some 33000, some 12000, some 10000]]
          (initA
            [⟨"a", "A", "", ""⟩, ⟨"b", "B", "", ""⟩, ⟨"c", "C", "", ""⟩,
              ⟨"d", "D", "", ""⟩])).getD
        (initA [])).playerScores "a").getD 0 =
      roundsSum
        ((runA
            [Op.commit ["a", "b", "c", "d"]
              [some 45000, some 33000, some 12000, some 10000]]
            (initA
              [⟨"a", "A", "", ""⟩, ⟨"b", "B", "", ""⟩, ⟨"c", "C", "", ""⟩,
                ⟨"d", "D", "", ""⟩])).getD
          (initA [])).rounds "a" :=
  c3_ledger_invariant
    [⟨"a", "A", "", ""⟩, ⟨"b", "B", "", ""⟩, ⟨"c", "C", "", ""⟩,
      ⟨"d", "D", "", ""⟩]
    [Op.commit ["a", "b", "c", "d"]
      [some 45000, some 33000, some 12000, some 10000]]
    _ rfl "a" (by rfl)

/-- C4: a round submission that fails validation mutates nothing —
`RoundDialog.onSave` returns the state unchanged together with the
message of the violated rule: duplicate/missing seat player first, then
a non-finite score, then (in this variant) a raw-score total different
from 100000. -/
theorem c4_validation_no_mutation (seat : List String)
    (nums : List (Option Int)) (s : AppState) :
    (((seat.filter (fun x => !(x == ""))).dedup).length ≠ 4 →
        roundSave seat nums s = (s, some VMsg.seatInvalid)) ∧
      (((seat.filter (fun x => !(x == ""))).dedup).length = 4 →
        nums.any (fun n => n.isNone) = true →
        roundSave seat nums s = (s, some VMsg.scoreInvalid)) ∧
      (((seat.filter (fun x => !(x == ""))).dedup).length = 4 →
        nums.any (fun n => n.isNone) = false →
        (nums.map (fun n => n.getD 0)).sum ≠ 100000 →
        roundSave seat nums s =
          (s, some (VMsg.sumMismatch (nums.map (fun n => n.getD 0)).sum))) ∧
      (∀ m : VMsg, validate seat nums = some m →
        roundSave seat nums s = (s, some m)) := by
  refine ⟨?_, ?_, ?_, ?_⟩
  · intro h1
    simp [roundSave, validate, h1]
  · intro h1 h2
    simp [roundSave, validate, h1, h2]
  · intro h1 h2 h3
    simp [roundSave, validate, h1, h2, h3]
  · intro m hm
    simp [roundSave, hm]

/-- Witness for C4: a duplicate seat, a non-finite score, and a bad
total are each rejected with their own message and an unchanged state. -/
theorem c4_witness :
    roundSave ["a", "a", "b", "c"]
        [some 25000, some 25000, some 25000, some 25000] (initA []) =
      (initA [], some VMsg.seatInvalid) ∧
    roundSave ["a", "b", "c", "d"] [none, some 2, some 3, some 4]
        (initA []) =
      (initA [], some VMsg.scoreInvalid) ∧
    roundSave ["a", "b", "c", "d"]
        [some 10, some 20, some 30, some 40] (initA []) =
      (initA [], some (VMsg.sumMismatch 100)) :=
  ⟨(c4_validation_no_mutation ["a", "a", "b", "c"]
      [some 25000, some 25000, some 25000, some 25000] (initA [])).1
      (by decide),
    (c4_validation_no_mutation ["a", "b", "c", "d"]
      [none, some 2, some 3, some 4] (initA [])).2.1 (by decide) (by decide),
    (c4_validation_no_mutation ["a", "b", "c", "d"]
      [some 10, some 20, some 30, some 40] (initA [])).2.2.1 (by decide)
      (by decide) (by decide)⟩

/-- C8: a settings update (`SettingsDialog.onSave`) replaces the
rank-bonus table but leaves the committed round sequence (with its
frozen breakdowns) and the ledger untouched — no past round is
recomputed. -/
theorem c8_settings_frame (tb : List Rat) (k : Nat) (s s2 : AppState)
    (h : stepA (Op.settings tb k) s = some s2) :
    s2.rounds = s.rounds ∧ s2.playerScores = s.playerScores ∧
      s2.rankBonus = tb ∧ s2.players = s.players := by
  simp only [stepA] at h
  split_ifs at h with hc
  rw [Option.some.injEq] at h
  subst h
  exact ⟨rfl, rfl, rfl, rfl⟩

/-- Witness for C8: updating the table to `[50, 20, -20, -50]` on a
one-player fresh state. -/
theorem c8_witness :
    ((stepA (Op.settings [50, 20, -20, -50] 1)
          (initA [⟨"a", "A", "", ""⟩])).getD
        (initA [])).rounds =
        (initA [⟨"a", "A", "", ""⟩]).rounds ∧
      ((stepA (Op.settings [50, 20, -20, -50] 1)
            (initA [⟨"a", "A", "", ""⟩])).getD
          (initA [])).playerScores =
        (initA [⟨"a", "A", "", ""⟩]).playerScores ∧
      ((stepA (Op.settings [50, 20, -20, -50] 1)
            (initA [⟨"a", "A", "", ""⟩])).getD
          (initA [])).rankBonus =
        [50, 20, -20, -50] ∧
      ((stepA (Op.settings [50, 20, -20, -50] 1)
            (initA [⟨"a", "A", "", ""⟩])).getD
          (initA [])).players =
        (initA [⟨"a", "A", "", ""⟩]).players :=
  c8_settings_frame [50, 20, -20, -50] 1 (initA [⟨"a", "A", "", ""⟩]) _ rfl

/-- C9 (implicit): every successful add-player confirmation appends the
new player, initializes its ledger entry at 0, and OVERWRITES `topK`
with `ceil(new roster size / 2)` — any previously configured `topK` is
discarded (the new value does not depend on the old one). -/
theorem c9_addPlayer_topK (pid name avatar : String) (s s2 : AppState)
    (h : stepA (Op.addPlayer pid name avatar) s = some s2) :
    s2.players = s.players ++ [⟨pid, jsTrim name, avatar, ""⟩] ∧
      s2.playerScores pid = some 0 ∧
      s2.topK = (s.players.length + 2) / 2 := by
  simp only [stepA] at h
  split_ifs at h with hc
  rw [Option.some.injEq] at h
  subst h
  exact ⟨rfl, by simp, rfl⟩

/-- Witness for C9: adding a player to a one-player state whose `topK`
was configured to 1 resets `topK` to `ceil(2 / 2) = 1`, and to a
three-player state it would be recomputed likewise; the new ledger entry
is 0. -/
theorem c9_witness :
    ((stepA (Op.addPlayer "p99" "New" "")
          (initA [⟨"a", "A", "", ""⟩])).getD
        (initA [])).players =
        (initA [⟨"a", "A", "", ""⟩]).players ++
          [⟨"p99", jsTrim "New", "", ""⟩] ∧
      ((stepA (Op.addPlayer "p99" "New" "")
            (initA [⟨"a", "A", "", ""⟩])).getD
          (initA [])).playerScores "p99" = some 0 ∧
      ((stepA (Op.addPlayer "p99" "New" "")
            (initA [⟨"a", "A", "", ""⟩])).getD
          (initA [])).topK =
        ((initA [⟨"a", "A", "", ""⟩]).players.length + 2) / 2 :=
  c9_addPlayer_topK "p99" "New" "" (initA [⟨"a", "A", "", ""⟩]) _ rfl

lemma groupSave_fst_rounds (enabled : Bool) (gs : List Group) (s : PState) :
    ((groupSave enabled gs s).1).rounds = s.rounds := by
  simp only [groupSave]
  split_ifs <;> rfl

lemma runP_rounds_flag (ops : List POp) (s : PState) (f : Bool)
    (hinv : s.rounds ≠ [] ↔ f = true) :
    (runP ops s).rounds ≠ [] ↔ committedSinceReset ops f = true := by
  induction ops generalizing s f with
  | nil => exact hinv
  | cons op ops ih =>
    cases op with
    | commit seat nums =>
      simp only [runP, stepP, committedSinceReset]
      cases hv : validateP seat nums with
      | some m =>
        have h1 : ((some m : Option VMsg) == none) = false := rfl
        rw [h1, Bool.or_false]
        exact ih s f hinv
      | none =>
        have h1 : ((none : Option VMsg) == none) = true := rfl
        rw [h1, Bool.or_true]
        refine ih _ true ?_
        simp [applyCommitP]
    | setGrouping enabled gs =>
      simp only [runP, stepP, committedSinceReset]
      refine ih _ f ?_
      rw [groupSave_fst_rounds]
      exact hinv
    | setBonus tb =>
      simp only [runP, stepP, committedSinceReset]
      refine ih _ f ?_
      split_ifs <;> exact hinv
    | reset =>
      simp only [runP, stepP, committedSinceReset]
      refine ih _ false ?_
      simp

/-- C7: after any sequence of operation attempts from a round-free
state, if at least one round has been committed since the last full
reset then any grouping-change attempt fails with `LockedError` and the
state is unchanged; if none has (before any round, or right after a
reset), a valid attempt (8 members assigned when enabling) succeeds and
installs the new configuration. -/
theorem c7_grouping_lock (s0 : PState) (h0 : s0.rounds = [])
    (ops : List POp) (enabled : Bool) (gs : List Group) :
    (committedSinceReset ops false = true →
        groupSave enabled gs (runP ops s0) =
          (runP ops s0, some GErr.locked)) ∧
      (committedSinceReset ops false = false →
        (enabled = true → (gs.map (fun g => g.members.length)).sum = 8) →
        groupSave enabled gs (runP ops s0) =
          ({ runP ops s0 with groupsEnabled := enabled, groups := gs },
            none)) := by
  have hiff := runP_rounds_flag ops s0 false (by simp [h0])
  constructor
  · intro hf
    have hr : (runP ops s0).rounds ≠ [] := hiff.mpr hf
    simp [groupSave, hr]
  · intro hf hvalid
    have hre : (runP ops s0).rounds = [] := by
      by_contra hx
      rw [hiff.mp hx] at hf
      exact absurd hf (by decide)
    rw [groupSave, if_neg (by simp [hre])]
    cases enabled with
    | false => rw [if_neg (by simp)]
    | true => rw [if_neg (by simp [hvalid rfl])]

/-- Witness for C7: after one committed round from a fresh two-group
state the grouping change is locked; before any round, enabling with
four full groups over 8 players succeeds. -/
theorem c7_witness :
    (groupSave false defaultGroups
        (runP
          [POp.commit ["a", "b", "c", "d"]
            [some 45000, some 33000, some 12000, some 10000]]
          (initP
            [⟨"a", "A", "", ""⟩, ⟨"b", "B", "", ""⟩, ⟨"c", "C", "", ""⟩,
              ⟨"d", "D", "", ""⟩])) =
      (runP
          [POp.commit ["a", "b", "c", "d"]
            [some 45000, some 33000, some 12000, some 10000]]
          (initP
            [⟨"a", "A", "", ""⟩, ⟨"b", "B", "", ""⟩, ⟨"c", "C", "", ""⟩,
              ⟨"d", "D", "", ""⟩]),
        some GErr.locked)) ∧
    (groupSave true
        [⟨"g1", "Group A", ["a", "b"]⟩, ⟨"g2", "Group B", ["c", "d"]⟩,
          ⟨"g3", "Group C", ["e", "f"]⟩, ⟨"g4", "Group D", ["g", "h"]⟩]
        (runP [] (initP [])) =
      ({ runP [] (initP []) with
          groupsEnabled := true,
          groups :=
            [⟨"g1", "Group A", ["a", "b"]⟩, ⟨"g2", "Group B", ["c", "d"]⟩,
              ⟨"g3", "Group C", ["e", "f"]⟩,
              ⟨"g4", "Group D", ["g", "h"]⟩] },
        none)) :=
  ⟨(c7_grouping_lock
      (initP
        [⟨"a", "A", "", ""⟩, ⟨"b", "B", "", ""⟩, ⟨"c", "C", "", ""⟩,
          ⟨"d", "D", "", ""⟩])
      rfl
      [POp.commit ["a", "b", "c", "d"]
        [some 45000, some 33000, some 12000, some 10000]]
      false defaultGroups).1 rfl,
    (c7_grouping_lock (initP []) rfl [] true
      [⟨"g1", "Group A", ["a", "b"]⟩, ⟨"g2", "Group B", ["c", "d"]⟩,
        ⟨"g3", "Group C", ["e", "f"]⟩, ⟨"g4", "Group D", ["g", "h"]⟩]).2
      rfl (fun _ => by decide)⟩

end MT
